import Mathlib

/-!
Verification model of the GeoRisk AI analysis cache and aggregation engine.

The embedding follows the source:
- the SQLite table analysis_cache and the two cache routes of the server
  (GET /api/cache, POST /api/cache) in the unnamed server file;
- the client service analyzeHeadline (src/services/riskAnalyzer.ts);
- the App component logic (src/App.tsx): handleAnalyze, the startup backfill
  effect, globalRiskIndex, criticalEvents and sectorImpacts.

Modelling conventions:
- JSON values are the inductive Json below; the JavaScript numbers that the
  claims touch are integer risk scores, so Json numbers carry Int.
- the analysis column stores the serialized blob; JSON.stringify followed by
  JSON.parse round-trips the value, so the column is modelled as holding the
  Json value itself.
- SQLite CURRENT_TIMESTAMP is modelled as a Nat supplied by the caller
  (state passing for the clock); equal Nats model rows written in the same
  second.
- rows are kept in rowid (insertion) order. INSERT OR REPLACE deletes the
  conflicting row and appends a fresh row at the end, and the timestamp
  column, absent from the INSERT column list, receives its default, the
  current time. ORDER BY timestamp DESC is modelled as a stable insertion
  sort on the rowid-ordered list; SQLite leaves the relative order of equal
  keys unspecified, the model fixes the scan order.
-/

/-- Json values as produced by JSON.parse. -/
inductive Json where
  | null : Json
  | bool (b : Bool) : Json
  | num (n : Int) : Json
  | str (s : String) : Json
  | arr (elems : List Json) : Json
  | obj (fields : List (String × Json)) : Json

/-- Property access on a parsed JSON value: j.key in JavaScript, none when the
value is not an object or the key is absent (undefined). -/
def Json.getField (j : Json) (key : String) : Option Json :=
  match j with
  | .obj fields => (fields.find? (fun kv => kv.fst == key)).map (fun kv => kv.snd)
  | _ => none

/-- Numeric riskScore field of an analysis payload (analysis.riskScore in
App.tsx line 81); none models undefined or a non-numeric value. -/
def jsonRiskScore (j : Json) : Option Int :=
  match j.getField "riskScore" with
  | some (.num n) => some n
  | _ => none

/-- String elements of a JSON array; used for the industries field, which the
analyzer response schema declares as an array of strings. -/
def Json.asStringArr (j : Json) : List String :=
  match j with
  | .arr elems =>
      elems.filterMap (fun e => match e with | .str s => some s | _ => none)
  | _ => []

/-- Industries list of an analysis payload (analysis.industries in App.tsx
line 146); the empty list models shapes on which the source render would
throw instead. -/
def industriesOf (j : Json) : List String :=
  (j.getField "industries").elim [] Json.asStringArr

/-- Consequences text of an analysis payload (analysis.consequences in
App.tsx line 150). -/
def consequencesOf (j : Json) : String :=
  match j.getField "consequences" with
  | some (.str s) => s
  | _ => ""

/-- Row of the analysis_cache table (server file, lines 15 to 23): id is the
TEXT PRIMARY KEY, analysis the serialized blob, risk_score the duplicated
numeric column, timestamp the DATETIME column with default
CURRENT_TIMESTAMP. -/
structure CachedAnalysis where
  id : String
  headline : String
  analysis : Json
  risk_score : Int
  timestamp : Nat

/-- INSERT OR REPLACE INTO analysis_cache (id, headline, analysis,
risk_score) VALUES (?, ?, ?, ?) from POST /api/cache: the conflicting row, if
any, is deleted and a fresh row is appended with a fresh rowid; the timestamp
column is not in the column list, so it receives its default, the current
time. -/
def insertOrReplaceCache (store : List CachedAnalysis) (id headline : String)
    (analysis : Json) (risk_score : Int) (now : Nat) : List CachedAnalysis :=
  store.filter (fun c => !(c.id == id)) ++ [⟨id, headline, analysis, risk_score, now⟩]

/-- Stable descending insertion by timestamp: the new row goes after every
row with a timestamp at least as large, so rows with equal timestamps keep
their rowid order. -/
def insertTsDesc (c : CachedAnalysis) : List CachedAnalysis → List CachedAnalysis
  | [] => [c]
  | d :: ds => if c.timestamp ≤ d.timestamp then d :: insertTsDesc c ds else c :: d :: ds

/-- ORDER BY timestamp DESC over the rowid-ordered rows, modelled as a stable
insertion sort. -/
def sortTsDesc (store : List CachedAnalysis) : List CachedAnalysis :=
  store.foldl (fun acc c => insertTsDesc c acc) []

/-- GET /api/cache: SELECT * FROM analysis_cache ORDER BY timestamp DESC
LIMIT 50. The client fetchCache returns this list. -/
def fetchCache (store : List CachedAnalysis) : List CachedAnalysis :=
  (sortTsDesc store).take 50

/-- Outcome of one call of the external analysis collaborator. failure covers
a transport or API error and a response text that is not valid JSON, both of
which surface as a thrown exception; success carries the parsed JSON of the
response text, none standing for an empty or absent text. -/
inductive AnalyzerOutcome where
  | failure : AnalyzerOutcome
  | success (text : Option Json) : AnalyzerOutcome

/-- analyzeHeadline of riskAnalyzer.ts: no structural validation is applied;
the body ends in JSON.parse of the response text with the empty object text
substituted for an empty or absent text. -/
def analyzeHeadline (o : AnalyzerOutcome) : Except Unit Json :=
  match o with
  | .failure => .error ()
  | .success none => .ok (Json.obj [])
  | .success (some j) => .ok j

/-- Client-visible state: the server table in rowid order and the
cachedAnalyses array last fetched by the client. -/
structure AppState where
  store : List CachedAnalysis
  view : List CachedAnalysis

/-- Result of one handleAnalyze call: the new state, the analysis delivered
to the caller or an error, and an instrumentation flag recording whether the
external analyzer was invoked during the call. -/
structure AnalyzeResult where
  state : AppState
  result : Except Unit Json
  analyzerCalled : Bool

/-- handleAnalyze of App.tsx (lines 67 to 91), for a given identity: consult
the fetched cachedAnalyses; on a hit return the parsed cached analysis and
touch nothing; on a miss invoke the analyzer, then save to the cache and
refetch it. When the riskScore field of the payload is not a number, the
serialized POST body drops the key, the server binds undefined and the write
throws server-side; the client ignores the response status, so the store is
unchanged while the call still reports success. -/
def handleAnalyze (id headline : String) (o : AnalyzerOutcome) (now : Nat)
    (s : AppState) : AnalyzeResult :=
  match s.view.find? (fun c => c.id == id) with
  | some cached => ⟨s, .ok cached.analysis, false⟩
  | none =>
    match analyzeHeadline o with
    | .error e => ⟨s, .error e, true⟩
    | .ok analysis =>
      match jsonRiskScore analysis with
      | some rs =>
        let store1 := insertOrReplaceCache s.store id headline analysis rs now
        ⟨⟨store1, fetchCache store1⟩, .ok analysis, true⟩
      | none => ⟨⟨s.store, fetchCache s.store⟩, .ok analysis, true⟩

/-- One user-driven analysis request: identity, headline text, the outcome
the external collaborator would produce for it, and the wall-clock second of
the write. -/
structure CallEvent where
  id : String
  headline : String
  outcome : AnalyzerOutcome
  now : Nat

/-- State transition of one handleAnalyze call. -/
def stepCall (s : AppState) (e : CallEvent) : AppState :=
  (handleAnalyze e.id e.headline e.outcome e.now s).state

/-- State after a sequence of handleAnalyze calls. -/
def runCalls (evs : List CallEvent) (s : AppState) : AppState :=
  evs.foldl stepCall s

/-- One backfill candidate: the news item identity and headline, the analyzer
outcome for it, and the second of its write. -/
structure BackfillItem where
  id : String
  headline : String
  outcome : AnalyzerOutcome
  now : Nat

/-- Body of the startup backfill loop of App.tsx (lines 51 to 54): for each
item await the analyzer then save. The loop body has no per-item handler, so
a failed analysis throws out of the loop to the outer catch: the returned
flag is false and the remaining items are not processed. -/
def backfillLoop : List BackfillItem → List CachedAnalysis → List CachedAnalysis × Bool
  | [], store => (store, true)
  | item :: rest, store =>
    match analyzeHeadline item.outcome with
    | .error _ => (store, false)
    | .ok analysis =>
      match jsonRiskScore analysis with
      | some rs =>
          backfillLoop rest
            (insertOrReplaceCache store item.id item.headline analysis rs item.now)
      | none => backfillLoop rest store

/-- Startup effect of App.tsx (lines 41 to 65): when the fetched cache holds
fewer than 5 records and news is nonempty, drive the first five candidates
through the backfill loop. -/
def initBackfill (items : List BackfillItem) (store : List CachedAnalysis) :
    List CachedAnalysis × Bool :=
  if (fetchCache store).length < 5 && !items.isEmpty then
    backfillLoop (items.take 5) store
  else (store, true)

/-- Rounding to one decimal place, the numeric content of toFixed(1). -/
def roundTenth (q : ℚ) : ℚ := (round (10 * q) : ℤ) / 10

/-- globalRiskIndex of App.tsx (lines 93 to 98): 0 on an empty fetched cache,
otherwise the mean risk_score of the first 15 fetched records, shown rounded
to one decimal place. -/
def globalRiskIndex (cachedAnalyses : List CachedAnalysis) : ℚ :=
  if cachedAnalyses.isEmpty then 0
  else
    let last15 := cachedAnalyses.take 15
    let sum := last15.foldl (fun acc curr => acc + (curr.risk_score : ℚ)) 0
    roundTenth (sum / (last15.length : ℚ))

/-- Entry of the critical events list: headline, score and the parsed
assessment. -/
structure CriticalEvent where
  headline : String
  score : Int
  analysis : Json

/-- criticalEvents of App.tsx (lines 123 to 132): filter the fetched cache to
risk_score at least 7, expose headline, score and parsed analysis, and keep
the first 5. -/
def criticalEvents (cachedAnalyses : List CachedAnalysis) : List CriticalEvent :=
  ((cachedAnalyses.filter (fun c => decide (7 ≤ c.risk_score))).map
    (fun c => ⟨c.headline, c.risk_score, c.analysis⟩)).take 5

/-- Fixed sector labels of sectorImpacts, in object-literal order. -/
def sectorLabels : List String :=
  ["Energy", "Defense", "Semiconductors", "Shipping", "Banking", "Technology"]

/-- Character-list test: pat starts the list. -/
def startsWithChars : List Char → List Char → Bool
  | [], _ => true
  | _ :: _, [] => false
  | a :: as, b :: bs => a == b && startsWithChars as bs

/-- Character-list test: pat occurs contiguously somewhere in the list. -/
def containsChars (pat : List Char) : List Char → Bool
  | [] => pat.isEmpty
  | b :: bs => startsWithChars pat (b :: bs) || containsChars pat bs

/-- Character content of s.toLowerCase(): every character lowered. -/
def lowerData (s : String) : List Char :=
  s.data.map Char.toLower

/-- Matching test of sectorImpacts (App.tsx line 148):
ind.toLowerCase().includes(s.toLowerCase()); the sector label must occur as a
contiguous substring of the industry string, case-insensitively. -/
def matchesSector (industry sector : String) : Bool :=
  containsChars (lowerData sector) (lowerData industry)

/-- Accumulator cell of sectorImpacts: match count and up to two retained
consequence excerpts. -/
structure SectorData where
  count : Nat
  reason : List String

/-- Count and excerpt update applied on each (industry, sector) match. -/
def bumpSector (consequences : String) (d : SectorData) : SectorData :=
  ⟨d.count + 1, if d.reason.length < 2 then d.reason ++ [consequences] else d.reason⟩

/-- Inner loops of sectorImpacts for one record: for each industry string and
each sector cell, bump the cell when the industry matches the sector. -/
def sectorStep (entries : List (String × SectorData)) (c : CachedAnalysis) :
    List (String × SectorData) :=
  (industriesOf c.analysis).foldl
    (fun es ind =>
      es.map (fun e =>
        if matchesSector ind e.fst then (e.fst, bumpSector (consequencesOf c.analysis) e.snd)
        else e))
    entries

/-- sectorImpacts of App.tsx (lines 134 to 157): fold the fetched cache over
the fixed sector cells, then keep the entries with a positive count. -/
def sectorImpacts (cachedAnalyses : List CachedAnalysis) : List (String × SectorData) :=
  (cachedAnalyses.foldl sectorStep (sectorLabels.map (fun s => (s, ⟨0, []⟩)))).filter
    (fun e => decide (0 < e.snd.count))

/-- Specification-side reading of the Global Risk Index, written from the
words of the spec for comparison with the code: arithmetic mean of the risk
scores of the most recent 15 records ordered by timestamp descending, rounded
to one decimal place, 0 on an empty store. -/
def specGlobalRiskIndex (store : List CachedAnalysis) : ℚ :=
  if store.isEmpty then 0
  else
    let recent := (sortTsDesc store).take 15
    roundTenth (((recent.map (fun c => (c.risk_score : ℚ))).sum) / (recent.length : ℚ))

/-- Store well-formedness: pairwise distinct identities. -/
def distinctIds (store : List CachedAnalysis) : Prop :=
  store.Pairwise (fun a b => a.id ≠ b.id)

/-- Number of rows carrying a given identity. -/
def countId (store : List CachedAnalysis) (id : String) : Nat :=
  (store.filter (fun c => c.id == id)).length

/-- Argument tuple of one POST /api/cache write. -/
structure PutOp where
  id : String
  headline : String
  analysis : Json
  risk_score : Int
  now : Nat

/-- One write applied to the table. -/
def applyPut (store : List CachedAnalysis) (op : PutOp) : List CachedAnalysis :=
  insertOrReplaceCache store op.id op.headline op.analysis op.risk_score op.now

/-- Table after a sequence of writes. -/
def applyPuts (ops : List PutOp) (store : List CachedAnalysis) : List CachedAnalysis :=
  ops.foldl applyPut store

/-- Ordering relation of the fetched cache: timestamps descending. -/
def tsDescOrder (a b : CachedAnalysis) : Prop := b.timestamp ≤ a.timestamp

lemma insertTsDesc_perm (c : CachedAnalysis) (l : List CachedAnalysis) :
    List.Perm (insertTsDesc c l) (c :: l) := by
  induction l with
  | nil => simp [insertTsDesc]
  | cons d ds ih =>
      by_cases h : c.timestamp ≤ d.timestamp
      · rw [insertTsDesc, if_pos h]
        exact (ih.cons d).trans (List.Perm.swap c d ds)
      · rw [insertTsDesc, if_neg h]

lemma sortAux_perm (l : List CachedAnalysis) :
    ∀ acc, List.Perm (l.foldl (fun a c => insertTsDesc c a) acc) (l ++ acc) := by
  induction l with
  | nil => intro acc; simp
  | cons c cs ih =>
      intro acc
      have h0 : List.Perm (cs.foldl (fun a c => insertTsDesc c a) (insertTsDesc c acc))
          (cs ++ insertTsDesc c acc) := ih (insertTsDesc c acc)
      have h1 : List.Perm (cs ++ insertTsDesc c acc) (cs ++ c :: acc) :=
        List.Perm.append_left cs (insertTsDesc_perm c acc)
      have h2 : List.Perm (cs ++ c :: acc) (c :: (cs ++ acc)) := List.perm_middle
      simpa using h0.trans (h1.trans h2)

lemma sortTsDesc_perm (l : List CachedAnalysis) : List.Perm (sortTsDesc l) l := by
  have := sortAux_perm l []
  simpa [sortTsDesc] using this

lemma length_sortTsDesc (l : List CachedAnalysis) : (sortTsDesc l).length = l.length :=
  (sortTsDesc_perm l).length_eq

lemma mem_sortTsDesc {c : CachedAnalysis} {l : List CachedAnalysis} :
    c ∈ sortTsDesc l ↔ c ∈ l :=
  (sortTsDesc_perm l).mem_iff

lemma sorted_insertTsDesc {c : CachedAnalysis} {l : List CachedAnalysis}
    (h : List.Sorted tsDescOrder l) : List.Sorted tsDescOrder (insertTsDesc c l) := by
  induction l with
  | nil => simp [insertTsDesc, List.Sorted]
  | cons d ds ih =>
      rw [List.sorted_cons] at h
      by_cases hc : c.timestamp ≤ d.timestamp
      · rw [insertTsDesc, if_pos hc, List.sorted_cons]
        refine ⟨?_, ih h.2⟩
        intro x hx
        rcases (insertTsDesc_perm c ds).mem_iff.mp hx with hx2
        rcases List.mem_cons.mp hx2 with rfl | hx3
        · exact hc
        · exact h.1 x hx3
      · rw [insertTsDesc, if_neg hc, List.sorted_cons]
        push_neg at hc
        refine ⟨?_, List.sorted_cons.mpr h⟩
        intro x hx
        rcases List.mem_cons.mp hx with rfl | hx2
        · exact Nat.le_of_lt hc
        · exact Nat.le_trans (h.1 x hx2) (Nat.le_of_lt hc)

lemma sortAux_sorted (l : List CachedAnalysis) :
    ∀ acc, List.Sorted tsDescOrder acc →
      List.Sorted tsDescOrder (l.foldl (fun a c => insertTsDesc c a) acc) := by
  induction l with
  | nil => intro acc h; simpa using h
  | cons c cs ih => intro acc h; exact ih (insertTsDesc c acc) (sorted_insertTsDesc h)

lemma sorted_sortTsDesc (l : List CachedAnalysis) : List.Sorted tsDescOrder (sortTsDesc l) :=
  sortAux_sorted l [] (by simp [List.Sorted])

lemma filter_ts_insertTsDesc {c : CachedAnalysis} {l : List CachedAnalysis} {t : Nat}
    (h : List.Sorted tsDescOrder l) :
    (insertTsDesc c l).filter (fun d => d.timestamp == t) =
      if c.timestamp == t then l.filter (fun d => d.timestamp == t) ++ [c]
      else l.filter (fun d => d.timestamp == t) := by
  induction l with
  | nil => cases hct : c.timestamp == t <;> simp [insertTsDesc, hct]
  | cons d ds ih =>
      rw [List.sorted_cons] at h
      by_cases hc : c.timestamp ≤ d.timestamp
      · rw [insertTsDesc, if_pos hc]
        rw [List.filter_cons, List.filter_cons]
        cases hdt : d.timestamp == t <;> cases hct : c.timestamp == t <;>
          simp [hdt, hct, ih h.2]
      · push_neg at hc
        rw [insertTsDesc, if_neg (Nat.not_le.mpr hc)]
        cases hct : c.timestamp == t
        · simp [List.filter_cons, hct]
        · have hct2 : c.timestamp = t := by simpa using hct
          have hnil : (d :: ds).filter (fun x => x.timestamp == t) = [] := by
            apply List.filter_eq_nil_iff.mpr
            intro x hx
            have hxle : x.timestamp ≤ d.timestamp := by
              rcases List.mem_cons.mp hx with rfl | hx2
              · exact Nat.le_refl _
              · exact h.1 x hx2
            have : x.timestamp < t := Nat.lt_of_le_of_lt hxle (hct2 ▸ hc)
            simp [Nat.ne_of_lt this]
          rw [List.filter_cons_of_pos (by simpa using hct), hnil]
          simp

lemma sortAux_filter_ts (t : Nat) (l : List CachedAnalysis) :
    ∀ acc, List.Sorted tsDescOrder acc →
      (l.foldl (fun a c => insertTsDesc c a) acc).filter (fun d => d.timestamp == t) =
        acc.filter (fun d => d.timestamp == t) ++ l.filter (fun d => d.timestamp == t) := by
  induction l with
  | nil => intro acc h; simp
  | cons c cs ih =>
      intro acc h
      have step := ih (insertTsDesc c acc) (sorted_insertTsDesc h)
      rw [List.foldl_cons, step, filter_ts_insertTsDesc h, List.filter_cons]
      cases hct : c.timestamp == t <;> simp [hct]

lemma filter_ts_sortTsDesc (l : List CachedAnalysis) (t : Nat) :
    (sortTsDesc l).filter (fun d => d.timestamp == t) =
      l.filter (fun d => d.timestamp == t) := by
  have := sortAux_filter_ts t l [] (by simp [List.Sorted])
  simpa [sortTsDesc] using this

lemma distinctIds_insertOrReplace {store : List CachedAnalysis} (h : distinctIds store)
    (id hl : String) (a : Json) (rs : Int) (now : Nat) :
    distinctIds (insertOrReplaceCache store id hl a rs now) := by
  unfold distinctIds insertOrReplaceCache
  rw [List.pairwise_append]
  refine ⟨h.filter _, List.pairwise_singleton _ _, ?_⟩
  intro x hx b hb
  rcases List.mem_singleton.mp hb with rfl
  have hx2 := (List.mem_filter.mp hx).2
  simp only [Bool.not_eq_eq_eq_not, Bool.not_true, beq_eq_false_iff_ne] at hx2
  simpa using hx2

lemma mem_insertOrReplace_of_ne {store : List CachedAnalysis} {c : CachedAnalysis}
    (hm : c ∈ store) {id : String} (hne : c.id ≠ id) (hl : String) (a : Json) (rs : Int)
    (now : Nat) : c ∈ insertOrReplaceCache store id hl a rs now := by
  unfold insertOrReplaceCache
  exact List.mem_append_left _ (List.mem_filter.mpr ⟨hm, by simpa using hne⟩)

lemma length_insertOrReplace_le (store : List CachedAnalysis) (id hl : String) (a : Json)
    (rs : Int) (now : Nat) :
    (insertOrReplaceCache store id hl a rs now).length ≤ store.length + 1 := by
  unfold insertOrReplaceCache
  rw [List.length_append]
  have := List.length_filter_le (fun c => !(c.id == id)) store
  simpa using this

lemma countId_insertOrReplace_self (store : List CachedAnalysis) (id hl : String) (a : Json)
    (rs : Int) (now : Nat) : countId (insertOrReplaceCache store id hl a rs now) id = 1 := by
  unfold countId insertOrReplaceCache
  rw [List.filter_append, List.filter_filter]
  have hnil : store.filter (fun c => (c.id == id) && !(c.id == id)) = [] := by
    apply List.filter_eq_nil_iff.mpr
    intro c _
    cases h : c.id == id <;> simp [h]
  rw [hnil]
  simp

lemma countId_eq_zero {store : List CachedAnalysis} {i : String}
    (h : ∀ c ∈ store, c.id ≠ i) : countId store i = 0 := by
  unfold countId
  rw [List.filter_eq_nil_iff.mpr ?_]
  · rfl
  · intro c hc
    simpa using h c hc

lemma countId_eq_one_of_mem {store : List CachedAnalysis} {c : CachedAnalysis} {i : String}
    (hd : distinctIds store) (hm : c ∈ store) (hi : c.id = i) : countId store i = 1 := by
  induction store with
  | nil => cases hm
  | cons d ds ih =>
      unfold distinctIds at hd
      rw [List.pairwise_cons] at hd
      rcases List.mem_cons.mp hm with rfl | hm2
      · have hz : countId ds i = 0 := by
          apply countId_eq_zero
          intro x hx
          exact fun hxi => (hd.1 x hx) (by rw [hi, hxi])
        unfold countId at *
        rw [List.filter_cons_of_pos (by simpa using hi)]
        simpa using hz
      · have hne : d.id ≠ i := fun hdi => (hd.1 c hm2) (by rw [hdi, hi])
        unfold countId at *
        rw [List.filter_cons_of_neg (by simpa using hne)]
        exact ih hd.2 hm2

lemma length_filter_not_id (store : List CachedAnalysis) (i : String) :
    (store.filter (fun c => !(c.id == i))).length = store.length - countId store i := by
  induction store with
  | nil => rfl
  | cons d ds ih =>
      unfold countId at *
      cases h : d.id == i
      · rw [List.filter_cons_of_pos (by simp [h]), List.filter_cons_of_neg (by simp [h])]
        have hle : (ds.filter (fun c => c.id == i)).length ≤ ds.length :=
          List.length_filter_le _ ds
        simp only [List.length_cons, ih]
        omega
      · rw [List.filter_cons_of_neg (by simp [h]), List.filter_cons_of_pos (by simp [h])]
        simp only [List.length_cons, ih]
        omega

lemma length_insertOrReplace_of_mem {store : List CachedAnalysis} {c : CachedAnalysis}
    {id : String} (hd : distinctIds store) (hm : c ∈ store) (hi : c.id = id) (hl : String)
    (a : Json) (rs : Int) (now : Nat) :
    (insertOrReplaceCache store id hl a rs now).length = store.length := by
  unfold insertOrReplaceCache
  rw [List.length_append, length_filter_not_id, countId_eq_one_of_mem hd hm hi]
  have hpos : 1 ≤ store.length := by
    cases store
    · cases hm
    · simp
  simp only [List.length_singleton]
  omega

lemma find?_id_eq_some {store : List CachedAnalysis} {c : CachedAnalysis} {i : String}
    (hd : List.Pairwise (fun a b => a.id ≠ b.id) store) (hm : c ∈ store) (hi : c.id = i) :
    store.find? (fun d => d.id == i) = some c := by
  induction store with
  | nil => cases hm
  | cons d ds ih =>
      rw [List.pairwise_cons] at hd
      rcases List.mem_cons.mp hm with rfl | hm2
      · rw [List.find?_cons_of_pos _ (by simpa using hi)]
      · have hne : d.id ≠ i := fun hdi => (hd.1 c hm2) (by rw [hdi, hi])
        rw [List.find?_cons_of_neg _ (by simpa using hne)]
        exact ih hd.2 hm2

lemma fetchCache_of_length_le {store : List CachedAnalysis} (h : store.length ≤ 50) :
    fetchCache store = sortTsDesc store := by
  unfold fetchCache
  exact List.take_of_length_le (by rw [length_sortTsDesc]; exact h)

lemma distinctIds_sortTsDesc {store : List CachedAnalysis} (h : distinctIds store) :
    List.Pairwise (fun a b => a.id ≠ b.id) (sortTsDesc store) :=
  ((sortTsDesc_perm store).pairwise_iff (fun hab => fun hEq => hab hEq.symm)).mpr h

/-- Invariant carried across subsequent calls: the fetched view mirrors the
store, identities are unique, the record rec is still stored, and the store
stays within the 50-row fetch window with n more calls to come. -/
def CacheInv (rec : CachedAnalysis) (n : Nat) (s : AppState) : Prop :=
  s.view = fetchCache s.store ∧ distinctIds s.store ∧ rec ∈ s.store ∧
    s.store.length + n ≤ 50

lemma handleAnalyze_hit {s : AppState} {rec : CachedAnalysis} {i : String}
    (h : s.view.find? (fun c => c.id == i) = some rec) (hl : String) (o : AnalyzerOutcome)
    (t : Nat) : handleAnalyze i hl o t s = ⟨s, .ok rec.analysis, false⟩ := by
  unfold handleAnalyze
  rw [h]

lemma analyzerCalled_of_miss {s : AppState} {i : String} (hl : String) (o : AnalyzerOutcome)
    (t : Nat) (hmiss : s.view.find? (fun c => c.id == i) = none) :
    (handleAnalyze i hl o t s).analyzerCalled = true := by
  simp only [handleAnalyze, hmiss]
  cases ho : analyzeHeadline o with
  | error e => simp only [ho]
  | ok analysis =>
      simp only [ho]
      cases hrs : jsonRiskScore analysis <;> simp only [hrs]

lemma view_find_of_parts {rec : CachedAnalysis} {s : AppState} {i : String}
    (hview : s.view = fetchCache s.store) (hd : distinctIds s.store) (hmem : rec ∈ s.store)
    (hlen : s.store.length ≤ 50) (hi : rec.id = i) :
    s.view.find? (fun c => c.id == i) = some rec := by
  rw [hview, fetchCache_of_length_le hlen]
  exact find?_id_eq_some (distinctIds_sortTsDesc hd) (mem_sortTsDesc.mpr hmem) hi

lemma stepCall_preserves {rec : CachedAnalysis} {n : Nat} {s : AppState} (e : CallEvent)
    (h : CacheInv rec (n + 1) s) : CacheInv rec n (stepCall s e) := by
  obtain ⟨hview, hd, hmem, hlen⟩ := h
  unfold stepCall
  cases hf : s.view.find? (fun c => c.id == e.id) with
  | some cached =>
      simp only [handleAnalyze, hf]
      exact ⟨hview, hd, hmem, by omega⟩
  | none =>
      simp only [handleAnalyze, hf]
      cases ho : analyzeHeadline e.outcome with
      | error err =>
          simp only [ho]
          exact ⟨hview, hd, hmem, by omega⟩
      | ok analysis =>
          simp only [ho]
          cases hrs : jsonRiskScore analysis with
          | none =>
              simp only [hrs]
              refine ⟨rfl, hd, hmem, ?_⟩
              show s.store.length + n ≤ 50
              omega
          | some rs =>
              simp only [hrs]
              have hne : rec.id ≠ e.id := by
                intro hEq
                have hfind : s.view.find? (fun c => c.id == e.id) = some rec :=
                  view_find_of_parts hview hd hmem (by omega) hEq
                rw [hf] at hfind
                cases hfind
              refine ⟨rfl, distinctIds_insertOrReplace hd _ _ _ _ _,
                mem_insertOrReplace_of_ne hmem hne _ _ _ _, ?_⟩
              show (insertOrReplaceCache s.store e.id e.headline analysis rs e.now).length +
                n ≤ 50
              have hL := length_insertOrReplace_le s.store e.id e.headline analysis rs e.now
              omega

lemma runCalls_preserves {rec : CachedAnalysis} :
    ∀ (evs : List CallEvent) (s : AppState), CacheInv rec evs.length s →
      CacheInv rec 0 (runCalls evs s) := by
  intro evs
  induction evs with
  | nil => intro s h; simpa [runCalls] using h
  | cons e es ih =>
      intro s h
      have hstep : CacheInv rec es.length (stepCall s e) := stepCall_preserves e h
      simpa [runCalls] using ih (stepCall s e) hstep

lemma handleAnalyze_miss_success {s : AppState} {i : String} (hl : String) {j : Json}
    {rs : Int} (t : Nat) (hmiss : s.view.find? (fun c => c.id == i) = none)
    (hrs : jsonRiskScore j = some rs) :
    handleAnalyze i hl (.success (some j)) t s =
      ⟨⟨insertOrReplaceCache s.store i hl j rs t,
        fetchCache (insertOrReplaceCache s.store i hl j rs t)⟩, .ok j, true⟩ := by
  simp only [handleAnalyze, hmiss, analyzeHeadline, hrs]

/-- C1 (amended): after a successful analyzeOrReuse for identity i, any
subsequent call for i returns the originally cached assessment without
invoking the external analyzer and without touching the state, provided the
whole call sequence keeps the store within the 50-row window of the cache
fetch; the LIMIT 50 of GET /api/cache makes the unrestricted form of the
claim false. -/
theorem cacheHit_window_guarantee (s0 : AppState) (i hlA hlB : String) (j : Json) (rs : Int)
    (tA tB : Nat) (evs : List CallEvent) (oB : AnalyzerOutcome)
    (hd : distinctIds s0.store)
    (hmiss : s0.view.find? (fun c => c.id == i) = none)
    (hrs : jsonRiskScore j = some rs)
    (hlen : s0.store.length + evs.length < 50) :
    (handleAnalyze i hlB oB tB
        (runCalls evs (stepCall s0 ⟨i, hlA, .success (some j), tA⟩))).result = .ok j ∧
    (handleAnalyze i hlB oB tB
        (runCalls evs (stepCall s0 ⟨i, hlA, .success (some j), tA⟩))).analyzerCalled = false ∧
    (handleAnalyze i hlB oB tB
        (runCalls evs (stepCall s0 ⟨i, hlA, .success (some j), tA⟩))).state =
      runCalls evs (stepCall s0 ⟨i, hlA, .success (some j), tA⟩) := by
  have hstep : stepCall s0 ⟨i, hlA, .success (some j), tA⟩ =
      ⟨insertOrReplaceCache s0.store i hlA j rs tA,
        fetchCache (insertOrReplaceCache s0.store i hlA j rs tA)⟩ := by
    unfold stepCall
    rw [handleAnalyze_miss_success hlA tA hmiss hrs]
  have hinv1 : CacheInv ⟨i, hlA, j, rs, tA⟩ evs.length
      (stepCall s0 ⟨i, hlA, .success (some j), tA⟩) := by
    rw [hstep]
    refine ⟨rfl, distinctIds_insertOrReplace hd _ _ _ _ _, ?_, ?_⟩
    · exact List.mem_append_right _ (List.mem_singleton.mpr rfl)
    · have := length_insertOrReplace_le s0.store i hlA j rs tA
      show (insertOrReplaceCache s0.store i hlA j rs tA).length + evs.length ≤ 50
      omega
  obtain ⟨hv2, hd2, hm2, hlen2⟩ := runCalls_preserves evs _ hinv1
  have hfind := view_find_of_parts hv2 hd2 hm2 (by omega)
    (show (⟨i, hlA, j, rs, tA⟩ : CachedAnalysis).id = i from rfl)
  rw [handleAnalyze_hit hfind hlB oB tB]
  exact ⟨rfl, rfl, rfl⟩

/-- Payload used by the C1 witness. -/
def c1WitnessPayload : Json := Json.obj [("riskScore", Json.num 6)]

/-- Witness instantiating the amended C1 theorem at a concrete input. -/
theorem cacheHit_window_guarantee_witness :
    (([] : List CachedAnalysis).find? (fun c => c.id == "x") = none) ∧
    jsonRiskScore c1WitnessPayload = some 6 ∧
    (handleAnalyze "x" "hB" .failure 2
        (runCalls [] (stepCall ⟨[], []⟩ ⟨"x", "hA", .success (some c1WitnessPayload), 1⟩))).result =
      .ok c1WitnessPayload := by
  refine ⟨rfl, rfl, ?_⟩
  exact (cacheHit_window_guarantee ⟨[], []⟩ "x" "hA" "hB" c1WitnessPayload 6 1 2 [] .failure
    List.Pairwise.nil rfl rfl (by decide)).1

/-- Payload used by the C1 eviction scenario. -/
def evictPayload : Json := Json.obj [("riskScore", Json.num 5)]

/-- Fifty later successful analyses of distinct fresh identities, each with a
strictly newer timestamp. -/
def evictEvents : List CallEvent :=
  (List.range 50).map (fun k => ⟨"a" ++ Nat.repr k, "hk", .success (some evictPayload), k + 1⟩)

/-- State after the first successful analysis of identity i0. -/
def evictState1 : AppState := stepCall ⟨[], []⟩ ⟨"i0", "h0", .success (some evictPayload), 0⟩

set_option maxRecDepth 400000 in
/-- C1 is refuted as stated: after one successful analysis of identity i0 and
fifty subsequent successful analyses of other identities, the record of i0
has left the 50-row fetch window, and a further call for i0 invokes the
external analyzer again. -/
theorem cacheHit_eviction_counterexample :
    (handleAnalyze "i0" "h2" (.success (some evictPayload)) 99
        (runCalls evictEvents evictState1)).analyzerCalled = true := by
  decide

/-- C2: when the external analyzer fails on a cache miss for identity i, the
state is unchanged (in particular no record is written for i), the failure is
reported to the caller, and a retry with the same identity invokes the
analyzer again. -/
theorem analyzer_failure_atomicity (s : AppState) (i hlA hlB : String) (oB : AnalyzerOutcome)
    (tA tB : Nat) (hmiss : s.view.find? (fun c => c.id == i) = none) :
    (handleAnalyze i hlA .failure tA s).state = s ∧
    (handleAnalyze i hlA .failure tA s).result = .error () ∧
    ((∀ c ∈ s.store, c.id ≠ i) →
      ∀ c ∈ (handleAnalyze i hlA .failure tA s).state.store, c.id ≠ i) ∧
    (handleAnalyze i hlB oB tB (handleAnalyze i hlA .failure tA s).state).analyzerCalled =
      true := by
  have hfail : handleAnalyze i hlA .failure tA s = ⟨s, .error (), true⟩ := by
    simp only [handleAnalyze, hmiss, analyzeHeadline]
  rw [hfail]
  exact ⟨rfl, rfl, fun h => h, analyzerCalled_of_miss hlB oB tB hmiss⟩

/-- Witness instantiating the C2 theorem at a concrete input. -/
theorem analyzer_failure_atomicity_witness :
    (([] : List CachedAnalysis).find? (fun c => c.id == "y") = none) ∧
    (handleAnalyze "y" "hA" .failure 1 ⟨[], []⟩).state = ⟨[], []⟩ ∧
    (handleAnalyze "y" "hB" .failure 2
        (handleAnalyze "y" "hA" .failure 1 ⟨[], []⟩).state).analyzerCalled = true := by
  have h := analyzer_failure_atomicity ⟨[], []⟩ "y" "hA" "hB" .failure 1 2 rfl
  exact ⟨rfl, h.1, h.2.2.2⟩

/-- C3: uniqueness invariant of the Store: writes preserve pairwise distinct
identities, a write leaves exactly one row for its identity, a write for an
existing identity keeps the row count unchanged instead of adding a second
entry, and replaying the same write leaves exactly one row for the
identity. -/
theorem store_uniqueness_invariant :
    (∀ (ops : List PutOp) (store : List CachedAnalysis), distinctIds store →
      distinctIds (applyPuts ops store)) ∧
    (∀ (store : List CachedAnalysis) (op : PutOp), countId (applyPut store op) op.id = 1) ∧
    (∀ (store : List CachedAnalysis) (op : PutOp), distinctIds store →
      (∃ c ∈ store, c.id = op.id) → (applyPut store op).length = store.length) ∧
    (∀ (store : List CachedAnalysis) (op : PutOp),
      countId (applyPut (applyPut store op) op) op.id = 1) := by
  refine ⟨?_, ?_, ?_, ?_⟩
  · intro ops
    induction ops with
    | nil => intro store h; simpa [applyPuts] using h
    | cons op rest ih =>
        intro store h
        have hstep : distinctIds (applyPut store op) :=
          distinctIds_insertOrReplace h _ _ _ _ _
        simpa [applyPuts] using ih (applyPut store op) hstep
  · intro store op
    exact countId_insertOrReplace_self store op.id op.headline op.analysis op.risk_score op.now
  · rintro store op hd ⟨c, hc, hcid⟩
    exact length_insertOrReplace_of_mem hd hc hcid _ _ _ _
  · intro store op
    exact countId_insertOrReplace_self _ op.id op.headline op.analysis op.risk_score op.now

/-- Witness instantiating the C3 theorem at a concrete input. -/
theorem store_uniqueness_invariant_witness :
    distinctIds [(⟨"x", "h", Json.obj [], 5, 1⟩ : CachedAnalysis)] ∧
    (∃ c ∈ [(⟨"x", "h", Json.obj [], 5, 1⟩ : CachedAnalysis)],
      c.id = (⟨"x", "h2", Json.obj [], 6, 2⟩ : PutOp).id) ∧
    (applyPut [⟨"x", "h", Json.obj [], 5, 1⟩] ⟨"x", "h2", Json.obj [], 6, 2⟩).length = 1 := by
  have hd : distinctIds [(⟨"x", "h", Json.obj [], 5, 1⟩ : CachedAnalysis)] :=
    List.pairwise_singleton _ _
  have hex : ∃ c ∈ [(⟨"x", "h", Json.obj [], 5, 1⟩ : CachedAnalysis)],
      c.id = (⟨"x", "h2", Json.obj [], 6, 2⟩ : PutOp).id :=
    ⟨_, List.mem_singleton.mpr rfl, rfl⟩
  exact ⟨hd, hex, store_uniqueness_invariant.2.2.1 _ _ hd hex⟩

lemma foldl_add_riskScore (l : List CachedAnalysis) (a : ℚ) :
    l.foldl (fun acc curr => acc + (curr.risk_score : ℚ)) a =
      a + ((l.map (fun c => (c.risk_score : ℚ))).sum) := by
  induction l generalizing a with
  | nil => simp
  | cons c cs ih => simp [ih, add_assoc]

lemma sum_riskScore_const {sc : Int} :
    ∀ l : List CachedAnalysis, (∀ c ∈ l, c.risk_score = sc) →
      (l.map (fun c => (c.risk_score : ℚ))).sum = (l.length : ℚ) * (sc : ℚ) := by
  intro l
  induction l with
  | nil => intro _; simp
  | cons c cs ih =>
      intro h
      have hc : c.risk_score = sc := h c (List.mem_cons_self c cs)
      have hcs : ∀ d ∈ cs, d.risk_score = sc := fun d hd => h d (List.mem_cons_of_mem c hd)
      simp [ih hcs, hc]
      ring

lemma fetchCache_ne_nil {store : List CachedAnalysis} (h : store ≠ []) :
    fetchCache store ≠ [] := by
  unfold fetchCache
  intro hnil
  rcases List.take_eq_nil_iff.mp hnil with h50 | hs
  · cases h50
  · apply h
    have hlen := length_sortTsDesc store
    rw [hs] at hlen
    exact List.length_eq_zero.mp hlen.symm

lemma roundTenth_intCast (n : Int) : roundTenth (n : ℚ) = (n : ℚ) := by
  unfold roundTenth
  have hcast : (10 : ℚ) * (n : ℚ) = ((10 * n : ℤ) : ℚ) := by push_cast; ring
  rw [hcast, round_intCast]
  push_cast
  ring

lemma globalRiskIndex_fetch_eq_spec (store : List CachedAnalysis) :
    globalRiskIndex (fetchCache store) = specGlobalRiskIndex store := by
  by_cases h : store = []
  · subst h; rfl
  · have hs : sortTsDesc store ≠ [] := by
      intro hnil
      apply h
      have hlen := length_sortTsDesc store
      rw [hnil] at hlen
      exact List.length_eq_zero.mp hlen.symm
    unfold globalRiskIndex specGlobalRiskIndex fetchCache
    rw [if_neg (by simpa [List.isEmpty_iff] using hs),
      if_neg (by simpa [List.isEmpty_iff] using h)]
    have htt : ((sortTsDesc store).take 50).take 15 = (sortTsDesc store).take 15 := by
      rw [List.take_take]
      norm_num
    show roundTenth
        ((((sortTsDesc store).take 50).take 15).foldl
            (fun acc curr => acc + (curr.risk_score : ℚ)) 0 /
          ((((sortTsDesc store).take 50).take 15).length : ℚ)) =
      roundTenth ((((sortTsDesc store).take 15).map (fun c => (c.risk_score : ℚ))).sum /
        (((sortTsDesc store).take 15).length : ℚ))
    rw [htt, foldl_add_riskScore, zero_add]

lemma globalRiskIndex_const {v : List CachedAnalysis} {sc : Int}
    (hne : v ≠ []) (hall : ∀ c ∈ v, c.risk_score = sc) : globalRiskIndex v = (sc : ℚ) := by
  unfold globalRiskIndex
  rw [if_neg (by simpa [List.isEmpty_iff] using hne)]
  have h15 : ∀ c ∈ v.take 15, c.risk_score = sc := fun c hc => hall c (List.take_subset 15 v hc)
  have hlen : v.take 15 ≠ [] := by
    intro hnil
    rcases List.take_eq_nil_iff.mp hnil with h0 | hv
    · cases h0
    · exact hne hv
  have hlen0 : (v.take 15).length ≠ 0 := fun hz => hlen (List.length_eq_zero.mp hz)
  have hlq : ((v.take 15).length : ℚ) ≠ 0 := Nat.cast_ne_zero.mpr hlen0
  show roundTenth
      ((v.take 15).foldl (fun acc curr => acc + (curr.risk_score : ℚ)) 0 /
        ((v.take 15).length : ℚ)) = (sc : ℚ)
  rw [foldl_add_riskScore, sum_riskScore_const (v.take 15) h15]
  rw [zero_add, mul_comm, mul_div_assoc, div_self hlq, mul_one]
  exact roundTenth_intCast sc

/-- C4: the Global Risk Index equals the arithmetic mean of risk_score over
the most recent 15 records ordered by timestamp descending, rounded to one
decimal place; it is 0 on an empty Store; and on a nonempty Store whose
records all carry score sc it equals sc exactly. -/
theorem global_risk_index_spec :
    (∀ store : List CachedAnalysis,
      globalRiskIndex (fetchCache store) = specGlobalRiskIndex store) ∧
    globalRiskIndex (fetchCache []) = 0 ∧
    (∀ (store : List CachedAnalysis) (sc : Int), store ≠ [] →
      (∀ c ∈ store, c.risk_score = sc) →
      globalRiskIndex (fetchCache store) = (sc : ℚ)) := by
  refine ⟨globalRiskIndex_fetch_eq_spec, rfl, ?_⟩
  intro store sc hne hall
  apply globalRiskIndex_const (fetchCache_ne_nil hne)
  intro c hc
  exact hall c (mem_sortTsDesc.mp (List.take_subset 50 _ hc))

/-- Witness instantiating the C4 theorem at a concrete input. -/
theorem global_risk_index_spec_witness :
    (([⟨"a", "h", Json.obj [], 4, 1⟩] : List CachedAnalysis) ≠ []) ∧
    (∀ c ∈ ([⟨"a", "h", Json.obj [], 4, 1⟩] : List CachedAnalysis), c.risk_score = 4) ∧
    globalRiskIndex (fetchCache [⟨"a", "h", Json.obj [], 4, 1⟩]) = (4 : ℚ) := by
  have hall : ∀ c ∈ ([⟨"a", "h", Json.obj [], 4, 1⟩] : List CachedAnalysis),
      c.risk_score = 4 := by
    intro c hc
    rw [List.mem_singleton.mp hc]
  exact ⟨by simp, hall, global_risk_index_spec.2.2 _ 4 (by simp) hall⟩

/-- C5 (amended): listRecent returns up to 50 records ordered by timestamp
descending, and rows with equal timestamps appear in rowid (insertion) order:
the SELECT applies no identity tiebreak, so equal-timestamp rows are not
sorted by identity. Truncation aside, the equal-timestamp rows of the result
are a leading segment of the equal-timestamp rows of the table in rowid
order. -/
theorem listRecent_order_amended (store : List CachedAnalysis) (t : Nat) :
    List.Sorted tsDescOrder (fetchCache store) ∧
    (fetchCache store).length ≤ 50 ∧
    (∃ rest, store.filter (fun c => c.timestamp == t) =
      (fetchCache store).filter (fun c => c.timestamp == t) ++ rest) := by
  refine ⟨List.Pairwise.sublist (List.take_sublist 50 _) (sorted_sortTsDesc store), ?_, ?_⟩
  · unfold fetchCache
    rw [List.length_take]
    exact min_le_left _ _
  · refine ⟨((sortTsDesc store).drop 50).filter (fun c => c.timestamp == t), ?_⟩
    rw [← filter_ts_sortTsDesc store t]
    conv_lhs => rw [← List.take_append_drop 50 (sortTsDesc store)]
    rw [List.filter_append]
    rfl

/-- Rows used by the C5 tie-order scenario: identity b is inserted before
identity a, both in the same second. -/
def tieStore : List CachedAnalysis :=
  applyPuts [⟨"b", "h1", Json.obj [], 3, 5⟩, ⟨"a", "h2", Json.obj [], 4, 5⟩] []

/-- C5 is refuted as stated: two rows share timestamp 5, yet listRecent
returns identity b before identity a although a is smaller, so ties are not
ordered by identity ascending. -/
theorem listRecent_tie_order_counterexample :
    (fetchCache tieStore).map (fun c => (c.id, c.timestamp)) = [("b", 5), ("a", 5)] ∧
    ("a" : String) < "b" := by
  exact ⟨by decide, String.lt_iff_toList_lt.mpr (by decide)⟩

/-- C6 (amended): a put replaces the row for its identity whole: afterwards
the unique row for that identity carries the put arguments and the timestamp
of that write, so an overwrite resets createdAt to the overwrite time instead
of preserving the original insertion time. -/
theorem createdAt_reset_on_overwrite (store : List CachedAnalysis) (id hl : String)
    (a : Json) (rs : Int) (now : Nat) :
    (insertOrReplaceCache store id hl a rs now).filter (fun c => c.id == id) =
      [⟨id, hl, a, rs, now⟩] := by
  unfold insertOrReplaceCache
  rw [List.filter_append, List.filter_filter]
  have hnil : store.filter (fun c => (c.id == id) && !(c.id == id)) = [] := by
    apply List.filter_eq_nil_iff.mpr
    intro c _
    cases h : c.id == id <;> simp [h]
  rw [hnil]
  simp

/-- C6 is refuted as stated: a row for identity x created in second 10 and
overwritten in second 20 ends with timestamp 20, not the original insertion
time 10. -/
theorem createdAt_overwrite_counterexample :
    (applyPuts [⟨"x", "h", Json.obj [], 5, 10⟩] []).map (fun c => (c.id, c.timestamp)) =
      [("x", 10)] ∧
    (applyPuts [⟨"x", "h", Json.obj [], 5, 10⟩, ⟨"x", "h", Json.obj [], 5, 20⟩] []).map
      (fun c => (c.id, c.timestamp)) = [("x", 20)] := by
  exact ⟨by decide, by decide⟩

/-- C7: for every store state the critical events list contains only entries
with score at least 7, never exceeds length 5, and is the image, in order, of
a list of records sorted most-recent-first. -/
theorem critical_events_shape (store : List CachedAnalysis) :
    (∀ e ∈ criticalEvents (fetchCache store), 7 ≤ e.score) ∧
    (criticalEvents (fetchCache store)).length ≤ 5 ∧
    (∃ recs : List CachedAnalysis,
      List.Sorted tsDescOrder recs ∧ recs.length ≤ 5 ∧
      (∀ r ∈ recs, 7 ≤ r.risk_score) ∧
      criticalEvents (fetchCache store) =
        recs.map (fun c => ⟨c.headline, c.risk_score, c.analysis⟩)) := by
  have hsorted50 : List.Sorted tsDescOrder (fetchCache store) :=
    List.Pairwise.sublist (List.take_sublist 50 _) (sorted_sortTsDesc store)
  have hrep : criticalEvents (fetchCache store) =
      (((fetchCache store).filter (fun c => decide (7 ≤ c.risk_score))).take 5).map
        (fun c => (⟨c.headline, c.risk_score, c.analysis⟩ : CriticalEvent)) := by
    unfold criticalEvents
    rw [List.map_take]
  have hsortedR : List.Sorted tsDescOrder
      (((fetchCache store).filter (fun c => decide (7 ≤ c.risk_score))).take 5) :=
    List.Pairwise.sublist (List.take_sublist 5 _) (hsorted50.filter _)
  have hscores : ∀ r ∈ ((fetchCache store).filter (fun c => decide (7 ≤ c.risk_score))).take 5,
      7 ≤ r.risk_score := by
    intro r hr
    have hrf := List.take_subset 5 _ hr
    exact of_decide_eq_true (List.mem_filter.mp hrf).2
  have hlen : (((fetchCache store).filter (fun c => decide (7 ≤ c.risk_score))).take 5).length
      ≤ 5 := by
    rw [List.length_take]
    exact min_le_left _ _
  refine ⟨?_, ?_, _, hsortedR, hlen, hscores, hrep⟩
  · intro e he
    rw [hrep] at he
    rcases List.mem_map.mp he with ⟨r, hr, rfl⟩
    exact hscores r hr
  · rw [hrep, List.length_map]
    exact hlen

lemma sectorFold_count_zero {s : String} :
    ∀ (inds : List String) (entries : List (String × SectorData)) (conseq : String),
      (∀ ind ∈ inds, matchesSector ind s = false) →
      (∀ e ∈ entries, e.fst = s → e.snd.count = 0) →
      ∀ e ∈ inds.foldl
          (fun es ind => es.map (fun e =>
            if matchesSector ind e.fst then (e.fst, bumpSector conseq e.snd) else e))
          entries,
        e.fst = s → e.snd.count = 0 := by
  intro inds
  induction inds with
  | nil => intro entries conseq _ he; simpa using he
  | cons ind rest ih =>
      intro entries conseq hm he
      apply ih _ conseq (fun i hi => hm i (List.mem_cons_of_mem ind hi))
      intro e hme hfst
      rcases List.mem_map.mp hme with ⟨e0, he0, rfl⟩
      by_cases hmatch : matchesSector ind e0.fst = true
      · exfalso
        have hfst2 : e0.fst = s := by simpa [hmatch] using hfst
        rw [hfst2] at hmatch
        rw [hm ind (List.mem_cons_self ind rest)] at hmatch
        cases hmatch
      · have hkeep : (if matchesSector ind e0.fst then (e0.fst, bumpSector conseq e0.snd)
            else e0) = e0 := by
          rw [if_neg hmatch]
        rw [hkeep] at hfst ⊢
        exact he e0 he0 hfst

lemma sectorSteps_count_zero {s : String} :
    ∀ (view : List CachedAnalysis) (entries : List (String × SectorData)),
      (∀ c ∈ view, ∀ ind ∈ industriesOf c.analysis, matchesSector ind s = false) →
      (∀ e ∈ entries, e.fst = s → e.snd.count = 0) →
      ∀ e ∈ view.foldl sectorStep entries, e.fst = s → e.snd.count = 0 := by
  intro view
  induction view with
  | nil => intro entries _ he; simpa using he
  | cons c cs ih =>
      intro entries hno he
      have hstep : ∀ e ∈ sectorStep entries c, e.fst = s → e.snd.count = 0 := by
        intro e hme hfst
        exact sectorFold_count_zero (industriesOf c.analysis) entries
          (consequencesOf c.analysis) (hno c (List.mem_cons_self c cs)) he e hme hfst
      intro e hme
      exact ih (sectorStep entries c) (fun d hd => hno d (List.mem_cons_of_mem c hd))
        hstep e hme

/-- C8 (amended): sector matching is a case-insensitive substring test of the
sector label inside the industry string; the industry Semiconductor
manufacturing therefore does NOT match the sector label Semiconductors (the
trailing s is missing from the industry string), while industry strings that
contain the full label, in any case, do match; and a sector with no matching
record in any industry is omitted from the result. -/
theorem sector_matching_amended (view : List CachedAnalysis) (s : String)
    (hno : ∀ c ∈ view, ∀ ind ∈ industriesOf c.analysis, matchesSector ind s = false) :
    matchesSector "Semiconductor manufacturing" "Semiconductors" = false ∧
    matchesSector "Asian semiconductors exports" "Semiconductors" = true ∧
    matchesSector "SEMICONDUCTORS" "Semiconductors" = true ∧
    s ∉ (sectorImpacts view).map (fun e => e.fst) := by
  refine ⟨by decide, by decide, by decide, ?_⟩
  intro hmem
  rcases List.mem_map.mp hmem with ⟨e, he, rfl⟩
  unfold sectorImpacts at he
  have hmf := List.mem_filter.mp he
  have h0 : ∀ e2 ∈ sectorLabels.map (fun l => (l, (⟨0, []⟩ : SectorData))),
      e2.fst = e.fst → e2.snd.count = 0 := by
    intro e2 he2 _
    rcases List.mem_map.mp he2 with ⟨l, _, rfl⟩
    rfl
  have hz := sectorSteps_count_zero view _ hno h0 e hmf.1 rfl
  have hpos := of_decide_eq_true hmf.2
  omega

/-- Record whose only industry is the string named by the claim. -/
def oilRecord : CachedAnalysis :=
  ⟨"o1", "oil news", Json.obj [("industries", Json.arr [Json.str "Oil"]),
    ("consequences", Json.str "price rise")], 6, 1⟩

/-- Witness instantiating the amended C8 theorem at a concrete input. -/
theorem sector_matching_amended_witness :
    (∀ c ∈ [oilRecord], ∀ ind ∈ industriesOf c.analysis,
      matchesSector ind "Semiconductors" = false) ∧
    ("Semiconductors" ∉ (sectorImpacts [oilRecord]).map (fun e => e.fst)) := by
  refine ⟨by decide, ?_⟩
  exact (sector_matching_amended [oilRecord] "Semiconductors" (by decide)).2.2.2

/-- Record carrying the exact industries list of the claim. -/
def semiRecord : CachedAnalysis :=
  ⟨"s1", "chip curbs",
    Json.obj [("industries", Json.arr [Json.str "Semiconductor manufacturing"]),
      ("consequences", Json.str "supply shock")], 8, 1⟩

/-- C8 is refuted as stated: a record with industries containing only
Semiconductor manufacturing is not counted under the sector Semiconductors:
the substring test fails, the record matches no sector at all, and the result
is empty. -/
theorem sector_matching_counterexample :
    matchesSector "Semiconductor manufacturing" "Semiconductors" = false ∧
    ("Semiconductors" ∉ (sectorImpacts [semiRecord]).map (fun e => e.fst)) ∧
    (sectorImpacts [semiRecord]).map (fun e => e.fst) = [] := by
  exact ⟨by decide, by decide, by decide⟩

/-- C9 (amended): a backfill item whose analysis fails aborts the remaining
backfill items: the loop stops with the store as of the failure and the
completion flag false; a successful item writes its record and continues with
the remaining items. -/
theorem backfill_abort_amended :
    (∀ (id hl : String) (t : Nat) (rest : List BackfillItem) (store : List CachedAnalysis),
      backfillLoop (⟨id, hl, .failure, t⟩ :: rest) store = (store, false)) ∧
    (∀ (id hl : String) (j : Json) (rs : Int) (t : Nat) (rest : List BackfillItem)
        (store : List CachedAnalysis), jsonRiskScore j = some rs →
      backfillLoop (⟨id, hl, .success (some j), t⟩ :: rest) store =
        backfillLoop rest (insertOrReplaceCache store id hl j rs t)) := by
  refine ⟨fun id hl t rest store => rfl, ?_⟩
  intro id hl j rs t rest store hrs
  simp only [backfillLoop, analyzeHeadline, hrs]

/-- Witness instantiating the amended C9 theorem at a concrete input. -/
theorem backfill_abort_amended_witness :
    jsonRiskScore (Json.obj [("riskScore", Json.num 3)]) = some 3 ∧
    backfillLoop
        [⟨"n1", "h1", AnalyzerOutcome.success (some (Json.obj [("riskScore", Json.num 3)])), 1⟩]
        [] =
      backfillLoop [] (insertOrReplaceCache [] "n1" "h1"
        (Json.obj [("riskScore", Json.num 3)]) 3 1) := by
  exact ⟨rfl, backfill_abort_amended.2 "n1" "h1" _ 3 1 [] [] rfl⟩

/-- Backfill items of the C9 scenario: the second item fails, the third would
succeed. -/
def abortItems : List BackfillItem :=
  [⟨"n1", "h1", .success (some (Json.obj [("riskScore", Json.num 3)])), 1⟩,
   ⟨"n2", "h2", .failure, 2⟩,
   ⟨"n3", "h3", .success (some (Json.obj [("riskScore", Json.num 4)])), 3⟩]

/-- C9 is refuted as stated: with an empty store the backfill runs, the
failure on the second item aborts the loop, and the third item, whose
analysis would have succeeded, is never processed: the final store holds only
the first identity. -/
theorem backfill_abort_counterexample :
    (initBackfill abortItems []).fst.map (fun c => c.id) = ["n1"] ∧
    (initBackfill abortItems []).snd = false := by
  exact ⟨by decide, by decide⟩

/-- C10 (amended): the analyzer applies no structural validation. On a miss,
a transport failure or syntactically invalid JSON fails the call and leaves
the state unchanged; any syntactically valid payload, of whatever shape, is
accepted as the analysis, and a record is cached whenever the payload carries
a numeric riskScore; an empty response is replaced by the empty object and
accepted as a success, with no record cached since its riskScore is undefined
and the server rejects the write. -/
theorem malformed_response_amended (s : AppState) (i hl : String) (t : Nat)
    (hmiss : s.view.find? (fun c => c.id == i) = none) :
    (handleAnalyze i hl .failure t s = ⟨s, .error (), true⟩) ∧
    (∀ (j : Json) (rs : Int), jsonRiskScore j = some rs →
      (handleAnalyze i hl (.success (some j)) t s).result = .ok j ∧
      (⟨i, hl, j, rs, t⟩ : CachedAnalysis) ∈
        (handleAnalyze i hl (.success (some j)) t s).state.store) ∧
    ((handleAnalyze i hl (.success none) t s).result = .ok (Json.obj []) ∧
      (handleAnalyze i hl (.success none) t s).state.store = s.store) := by
  have hnone : handleAnalyze i hl (.success none) t s =
      ⟨⟨s.store, fetchCache s.store⟩, .ok (Json.obj []), true⟩ := by
    simp only [handleAnalyze, hmiss, analyzeHeadline]
    rfl
  refine ⟨?_, ?_, ?_⟩
  · simp only [handleAnalyze, hmiss, analyzeHeadline]
  · intro j rs hrs
    rw [handleAnalyze_miss_success hl t hmiss hrs]
    exact ⟨rfl, List.mem_append_right _ (List.mem_singleton.mpr rfl)⟩
  · rw [hnone]
    exact ⟨rfl, rfl⟩

/-- Witness instantiating the amended C10 theorem at a concrete input. -/
theorem malformed_response_amended_witness :
    (([] : List CachedAnalysis).find? (fun c => c.id == "m1") = none) ∧
    jsonRiskScore (Json.obj [("riskScore", Json.num 5)]) = some 5 ∧
    (handleAnalyze "m1" "mh"
        (.success (some (Json.obj [("riskScore", Json.num 5)]))) 4 ⟨[], []⟩).result =
      .ok (Json.obj [("riskScore", Json.num 5)]) := by
  refine ⟨rfl, rfl, ?_⟩
  exact ((malformed_response_amended ⟨[], []⟩ "m1" "mh" 4 rfl).2.1
    (Json.obj [("riskScore", Json.num 5)]) 5 rfl).1

/-- Structurally invalid payload: a riskScore alone, every other field the
response schema requires being absent. -/
def invalidPayload : Json := Json.obj [("riskScore", Json.num 5)]

/-- C10 is refuted as stated: a structurally invalid payload is not rejected:
the call succeeds with the payload as its analysis and a record is cached for
the identity; an empty payload is likewise accepted as the empty object
instead of failing with MalformedResponse. -/
theorem malformed_response_counterexample :
    (handleAnalyze "m1" "mh" (.success (some invalidPayload)) 4 ⟨[], []⟩).result =
      .ok invalidPayload ∧
    (handleAnalyze "m1" "mh" (.success (some invalidPayload)) 4
        ⟨[], []⟩).state.store.map (fun c => (c.id, c.risk_score)) = [("m1", 5)] ∧
    (handleAnalyze "m2" "mh" (.success none) 4 ⟨[], []⟩).result = .ok (Json.obj []) := by
  exact ⟨rfl, by decide, rfl⟩
